import Mathlib

/-!
Shallow embedding of the printerbot text-layout pipeline
(`src/text_to_img.py`), of the printing front end
(`src/citizen_api.py`) and of the user table (`src/db.py`).

Strings are modelled as `List Char`, Python floats by exact rationals,
Python ints by `ℤ` (or `ℕ` where the source value is a nonnegative int).
A Python function that can raise on some input is modelled with an
`Option` result, `none` standing for the raised exception.
-/

/-- Python `int(q)` on a nonnegative-or-negative float: truncation toward zero,
modelled on exact rationals. -/
def pyInt (q : ℚ) : ℤ := if 0 ≤ q then ⌊q⌋ else -⌊-q⌋

/-- `Font` (src/text_to_img.py): one typeface plus its derived metrics.
`letter_width = getsize(example)[0] / len(example)` is a float, modelled as a
rational; `letter_height = getsize(example)[1]` is a nonnegative int.
`has_symbol` is the glyph-coverage predicate over the font's cmap tables.
`id` models Python object identity: distinct `Font` objects compare unequal
under `==`, so each constructed font carries a distinct `id` and the
pipeline's font comparison compares `id`s. -/
structure Font where
  id : ℕ
  letter_width : ℚ
  letter_height : ℕ
  has_symbol : Char → Bool

/-- `Font.FONT_SIZE` in src/text_to_img.py. -/
def FONT_SIZE : ℕ := 136

/-- `TextProcessor.PIXELS_PER_LINE` in src/text_to_img.py. -/
def PIXELS_PER_LINE : ℕ := 20

/-- `TextProcessor.IMAGE_PIX_WIDTH = PIXELS_PER_LINE * Font.FONT_SIZE`. -/
def IMAGE_PIX_WIDTH : ℕ := PIXELS_PER_LINE * FONT_SIZE

/-- The characters removed by `text.strip(' \n')`. -/
def isStripChar (c : Char) : Bool := c = ' ' || c = '\n'

/-- Python `text.strip(' \n')`: remove leading and trailing spaces/newlines. -/
def pyStrip (text : List Char) : List Char :=
  ((text.dropWhile isStripChar).reverse.dropWhile isStripChar).reverse

/-- `b'\xef\xb8\x8f'.decode()` = U+FE0F, the emoji variation selector
(called "end of tg msg?" in the source). -/
def endOfTgMsg : Char := Char.ofNat 0xFE0F

/-- One iteration of the loop in `TextProcessor.letters`: the tokens emitted
for a single character.  `List.find?` models the `for font in self.fonts:
... break` scan; the `for/else` clause handles the unresolved cases. -/
def emitLetter (fonts : List Font) (letter : Char) : List (Char × Font) :=
  match fonts.find? (fun font => font.has_symbol letter) with
  | some font => [(letter, font)]
  | none =>
    if letter = '\n' then
      match fonts with
      | font0 :: _ => [('\n', font0)]
      | [] => []  -- `self.fonts[0]` would raise in CPython; claims use nonempty font sets
    else if letter = endOfTgMsg then
      []  -- silently dropped
    else
      []  -- unknown symbol: silently dropped (the RuntimeError is commented out)

/-- `TextProcessor.letters`: strip the input, then accumulate the per-character
tokens in source order. -/
def letters (fonts : List Font) (text : List Char) : List (Char × Font) :=
  (pyStrip text).foldl (fun acc letter => acc ++ emitLetter fonts letter) []

/-- The mutable state of `TextProcessor.words`: the accumulated word list
`ws`, the current font `cf` and the current word buffer `cw`. -/
structure WJState where
  ws : List (List Char × Font)
  cf : Font
  cw : List Char

/-- `new_word(font_)` in `TextProcessor.words`: flush a nonempty buffer as a
word tagged with the argument font. -/
def newWord (font_ : Font) (s : WJState) : WJState :=
  if s.cw.isEmpty then s else { ws := s.ws ++ [(s.cw, font_)], cf := s.cf, cw := [] }

/-- The shared tail of the loop body of `TextProcessor.words` (the
`if current_font == font` comparison reached either directly or by falling
through the space branch). -/
def wjCont (s : WJState) (letter : Char) (font : Font) : WJState :=
  if s.cf.id = font.id then { s with cw := s.cw ++ [letter] }
  else { newWord font s with cw := [letter], cf := font }

/-- One iteration of the loop in `TextProcessor.words`.  Note that for a
space the code falls through to the font comparison (there is no `continue`),
so the space itself is appended to the freshly cleared buffer. -/
def wjStep (s : WJState) (tok : Char × Font) : WJState :=
  if tok.1 = '\n' || tok.1 = ' ' then
    let s1 := newWord s.cf s
    if tok.1 = '\n' then
      newWord tok.2 { s1 with cw := s1.cw ++ ['\n'] }
    else
      wjCont s1 tok.1 tok.2
  else
    wjCont s tok.1 tok.2

/-- `TextProcessor.words`: join letters into words.  On an empty token list
CPython raises `IndexError` at `letters[0][1]`, modelled by `none`. -/
def words (lts : List (Char × Font)) : Option (List (List Char × Font)) :=
  match lts with
  | [] => none
  | (_, f0) :: _ =>
    let s := lts.foldl wjStep { ws := [], cf := f0, cw := [] }
    some (newWord s.cf s).ws

/-- `word_pix_length = int(len(word) * font.letter_width + 1)`. -/
def wordPixLen (w : List Char) (f : Font) : ℤ :=
  pyInt ((w.length : ℚ) * f.letter_width + 1)

/-- The mutable state of `TextProcessor.word_table`: the completed lines
`done`, the current (last) line `cur` (the Python `table` is `done ++ [cur]`)
and the remaining pixel budget `line_pix_len`. -/
structure WTState where
  done : List (List (List Char × Font))
  cur : List (List Char × Font)
  budget : ℤ

/-- `newline()` in `TextProcessor.word_table`: start a new line (and reset the
budget) only when the current line is nonempty. -/
def wtNewline (W : ℕ) (s : WTState) : WTState :=
  if s.cur.isEmpty then s else { done := s.done ++ [s.cur], cur := [], budget := (W : ℤ) }

/-- `add_word(word_, font_)`: append to the current line and subtract the
enclosing loop's `word_pix_length` (for a forced-split fragment this is the
full word's pixel length, exactly as in the source). -/
def wtAddWord (word_pix_length : ℤ) (wf : List Char × Font) (s : WTState) : WTState :=
  { done := s.done, cur := s.cur ++ [wf], budget := s.budget - word_pix_length }

/-- One iteration of the loop in `TextProcessor.word_table`, with the canvas
width `W` (the class constant `IMAGE_PIX_WIDTH`) as explicit parameter. -/
def wtStep (W : ℕ) (s : WTState) (wf : List Char × Font) : WTState :=
  if wf.1 = ['\n'] then wtNewline W s
  else
    let word_pix_length := wordPixLen wf.1 wf.2
    if word_pix_length ≤ s.budget then wtAddWord word_pix_length wf s
    else if word_pix_length ≤ (W : ℤ) then wtAddWord word_pix_length wf (wtNewline W s)
    else
      let lines_count := ((word_pix_length - 1).fdiv (W : ℤ) + 1).toNat
      let word_part_len := W / wf.2.letter_height
      (List.range lines_count).foldl
        (fun s' idx =>
          wtAddWord word_pix_length
            ((wf.1.drop (idx * word_part_len)).take word_part_len, wf.2)
            (wtNewline W s')) s

/-- The line-wrapping loop of `TextProcessor.word_table` run over a word
list, returning the table `done ++ [cur]` (the Python table starts as `[[]]`
with budget `IMAGE_PIX_WIDTH`). -/
def tableFromWords (W : ℕ) (ws : List (List Char × Font)) :
    List (List (List Char × Font)) :=
  let s := ws.foldl (wtStep W) { done := [], cur := [], budget := (W : ℤ) }
  s.done ++ [s.cur]

/-- `TextProcessor.word_table`: the full pipeline text → letters → words →
table.  `none` models the `IndexError` raised by `words` on an empty token
list. -/
def word_table (fonts : List Font) (text : List Char) :
    Option (List (List (List Char × Font))) :=
  (words (letters fonts text)).map (tableFromWords IMAGE_PIX_WIDTH)

/-- `max(font.letter_height for font in self.fonts)` in
`TextProcessor.compile_text` (Python `max` raises on an empty font set;
claims only use nonempty sets, where the `0` seed is absorbed). -/
def line_heigth (fonts : List Font) : ℕ :=
  (fonts.map Font.letter_height).foldl max 0

/-- One `draw.text(counter, word, ...)` call of the rasterizer: the cursor
position at which the word is drawn. -/
structure DrawCmd where
  x : ℚ
  y : ℕ
  word : List Char
  font : Font

/-- The image produced by `TextProcessor.compile_text`: its size
`(width, height)` and the sequence of text-drawing commands. -/
structure Canvas where
  size : ℕ × ℕ
  cmds : List DrawCmd

/-- `TextProcessor.compile_text`: build the word table, compute the canvas
size, and draw every word with the cursor advancing by
`len(word) * font.letter_width` per word and by `line_heigth` per line. -/
def compile_text (fonts : List Font) (text : List Char) : Option Canvas :=
  (word_table fonts text).map (fun table =>
    let lh := line_heigth fonts
    let st := table.foldl
      (fun (st : List DrawCmd × ℚ × ℕ) line =>
        let st2 := line.foldl
          (fun (st2 : List DrawCmd × ℚ × ℕ) wf =>
            (st2.1 ++ [{ x := st2.2.1, y := st2.2.2, word := wf.1, font := wf.2 }],
             st2.2.1 + (wf.1.length : ℚ) * wf.2.letter_width, st2.2.2))
          st
        (st2.1, 0, st2.2.2 + lh))
      ([], 0, 0)
    { size := (PIXELS_PER_LINE * FONT_SIZE, lh * table.length), cmds := st.1 })

/-- The images handed to the printer by `citizen_print_msg`: the user's
photograph or the canvas compiled from the caption text. -/
inductive PrintImg where
  | userImage
  | compiledText (text : List Char)

/-- One printer interaction in `citizen_print_msg`: `PRINTER.image(...)`,
`PRINTER.text(...)` or `PRINTER.cut()`.  An `image (compiledText t)` event
also marks the invocation of `TEXT_PROCESSOR.compile_text(t)`. -/
inductive PrintEvent where
  | image (img : PrintImg)
  | chars (cs : List Char)
  | cut

/-- Python truthiness of the `Optional[str]` argument: `None` and the empty
string are falsy. -/
def truthyText : Option (List Char) → Bool
  | none => false
  | some s => !s.isEmpty

/-- The outcome of one `citizen_print_msg` call: whether `NothingToPrint`
was raised, and everything that reached the layout core and the printer. -/
structure PrintRun where
  raised : Bool
  events : List PrintEvent

/-- `citizen_print_msg(text, img, user_name)` (src/citizen_api.py).  The
`not text and not img` guard runs first; raising leaves an empty event list
(nothing is compiled, nothing reaches the printer).  A PIL image has no
`__bool__`, so `not img` is just `img is None`. -/
def citizen_print_msg (text : Option (List Char)) (img : Option Unit)
    (user_name : List Char) : PrintRun :=
  if !truthyText text && img.isNone then
    { raised := true, events := [] }
  else
    let images_to_print :=
      (if img.isSome then [PrintImg.userImage] else []) ++
      (if truthyText text then [PrintImg.compiledText (text.getD [])] else [])
    { raised := false,
      events :=
        images_to_print.flatMap (fun i => [PrintEvent.image i, PrintEvent.chars ['\n']]) ++
        [PrintEvent.chars ('@' :: user_name ++ ['\n']), PrintEvent.cut] }

/-- `User.messages_count` column default (src/db.py): `default=1`. -/
def DEFAULT_MESSAGES_COUNT : ℤ := 1

/-- The `select(User.messages_count).where(User.name == name)` scalar query
over the user table, modelled as an association list. -/
def selectMsgCount (db : List (List Char × ℤ)) (name : List Char) : Option ℤ :=
  (db.find? (fun row => row.1 == name)).map Prod.snd

/-- `User.create(name)`: insert a row; `messages_count` takes the column
default. -/
def userCreate (db : List (List Char × ℤ)) (name : List Char) : List (List Char × ℤ) :=
  db ++ [(name, DEFAULT_MESSAGES_COUNT)]

/-- `User.get_msg_count(name)`: read the stored counter; on a missing row,
create it and return `User.messages_count.default.arg`. -/
def get_msg_count (db : List (List Char × ℤ)) (name : List Char) :
    ℤ × List (List Char × ℤ) :=
  match selectMsgCount db name with
  | some count => (count, db)
  | none => (DEFAULT_MESSAGES_COUNT, userCreate db name)

/-- The sum of `word_pix_length` over the words of one line. -/
def linePixSum (line : List (List Char × Font)) : ℤ :=
  (line.map (fun wf => wordPixLen wf.1 wf.2)).sum

/-- A deterministic test font in the spirit of the spec's §8 Font A:
`letter_width = 10`, `letter_height = 20`, covering the letters used in the
concrete examples. -/
def fontA : Font :=
  { id := 0, letter_width := 10, letter_height := 20,
    has_symbol := fun c => (['a', 'b', 'c', 'd', 'm'] : List Char).contains c }

/-- A font whose average `letter_width` is fractional (e.g. a two-character
example string measuring 5439 pixels wide), exhibiting the gap between the
code's `int(len*width + 1)` and the spec's `ceil(len*width) + 1`. -/
def fontHalf : Font :=
  { id := 1, letter_width := 5439 / 2, letter_height := 20,
    has_symbol := fun c => c == 'a' }

/-- The spec's pixel formula for a word, `ceil(len(word) * letter_width) + 1`
(the code instead computes `int(len(word) * letter_width + 1)`). -/
def specCeilPix (w : List Char) (f : Font) : ℤ :=
  ⌈(w.length : ℚ) * f.letter_width⌉ + 1

/-- Shape of every word emitted by `TextProcessor.words`: the lone-newline
word, or a nonempty word with no newline and with a space at most in first
position (the space that the missing `continue` appends to the fresh
buffer). -/
def wordOk (wf : List Char × Font) : Prop :=
  wf.1 = ['\n'] ∨ ('\n' ∉ wf.1 ∧ ' ' ∉ wf.1.drop 1 ∧ wf.1 ≠ [])

/-- Invariant of the word buffer of `TextProcessor.words` between two loop
iterations: no newline, and a space at most in first position. -/
def bufOk (cw : List Char) : Prop := '\n' ∉ cw ∧ ' ' ∉ cw.drop 1

/-- A line of the layout table is within the pixel budget, or is a single
forced-split fragment whose own pixel length exceeds the full width. -/
def goodLine (W : ℕ) (line : List (List Char × Font)) : Prop :=
  linePixSum line ≤ (W : ℤ) ∨ ∃ wf, line = [wf] ∧ (W : ℤ) < wordPixLen wf.1 wf.2

/-- The reachability invariant of the `word_table` loop state: all completed
lines and the current line are good, the pixel sum of the current line is
covered by the consumed budget, the budget never exceeds the width, and an
empty current line still has the full budget. -/
def wtInv (W : ℕ) (s : WTState) : Prop :=
  (∀ l ∈ s.done, goodLine W l) ∧ goodLine W s.cur ∧
  linePixSum s.cur ≤ (W : ℤ) - s.budget ∧ s.budget ≤ (W : ℤ) ∧
  (s.cur = [] → s.budget = (W : ℤ))

/-! ### Helper lemmas -/

theorem pyInt_intCast (n : ℤ) : pyInt ((n : ℚ)) = n := by
  rw [pyInt]
  split
  · exact Int.floor_intCast n
  · rw [← Int.cast_neg, Int.floor_intCast]; ring

theorem pyInt_eq_floor (q : ℚ) (h : 0 ≤ q) : pyInt q = ⌊q⌋ := if_pos h

theorem wordPixLen_natWidth (w : List Char) (f : Font) (n : ℕ)
    (h : f.letter_width = (n : ℚ)) : wordPixLen w f = n * w.length + 1 := by
  have hq : ((w.length : ℚ) * f.letter_width + 1) = (((n * w.length + 1 : ℤ)) : ℚ) := by
    rw [h]; push_cast; ring
  rw [wordPixLen, hq, pyInt_intCast]

theorem wordPixLen_fontA (w : List Char) : wordPixLen w fontA = 10 * w.length + 1 :=
  wordPixLen_natWidth w fontA 10 (by norm_num [fontA])

theorem foldl_append_eq_flatMap {α β : Type} (f : α → List β) :
    ∀ (l : List α) (acc : List β),
      l.foldl (fun acc x => acc ++ f x) acc = acc ++ l.flatMap f
  | [], acc => by simp
  | x :: l, acc => by
    simp only [List.foldl_cons, List.flatMap_cons, foldl_append_eq_flatMap f l]
    simp

theorem letters_eq_flatMap (fonts : List Font) (text : List Char) :
    letters fonts text = (pyStrip text).flatMap (emitLetter fonts) := by
  rw [letters, foldl_append_eq_flatMap]
  simp

theorem letters_font_mem (fonts : List Font) (text : List Char)
    (tok : Char × Font) (h : tok ∈ letters fonts text) : tok.2 ∈ fonts := by
  rw [letters_eq_flatMap] at h
  rcases List.mem_flatMap.1 h with ⟨c, _, hc⟩
  rw [emitLetter.eq_def] at hc
  rcases hfind : fonts.find? (fun fnt => fnt.has_symbol c) with _ | fnt
  · rw [hfind] at hc
    simp only at hc
    split at hc
    · cases fonts with
      | nil => simp at hc
      | cons f0 fs =>
        simp only [List.mem_singleton] at hc
        subst hc
        exact List.mem_cons_self f0 fs
    · split at hc <;> simp at hc
  · rw [hfind] at hc
    simp only [List.mem_singleton] at hc
    subst hc
    exact List.mem_of_find?_eq_some hfind

theorem newWord_cw (font_ : Font) (s : WJState) : (newWord font_ s).cw = [] := by
  rw [newWord]
  split
  · next h => exact List.isEmpty_iff.1 h
  · rfl

theorem newWord_cf (font_ : Font) (s : WJState) : (newWord font_ s).cf = s.cf := by
  rw [newWord]; split <;> rfl

theorem newWord_ws (font_ : Font) (s : WJState) (wf : List Char × Font)
    (h : wf ∈ (newWord font_ s).ws) :
    wf ∈ s.ws ∨ (wf = (s.cw, font_) ∧ s.cw ≠ []) := by
  rw [newWord] at h
  split at h
  · exact Or.inl h
  · next hne =>
    rcases List.mem_append.1 h with h' | h'
    · exact Or.inl h'
    · exact Or.inr ⟨List.mem_singleton.1 h', fun he => hne (by simp [he])⟩

theorem bufOk_nil : bufOk [] := by constructor <;> simp

theorem bufOk_concat (cw : List Char) (c : Char) (h : bufOk cw)
    (hc1 : c ≠ '\n') (hc2 : c ≠ ' ') : bufOk (cw ++ [c]) := by
  obtain ⟨h1, h2⟩ := h
  constructor
  · simp only [List.mem_append, List.mem_singleton]
    rintro (h' | h')
    · exact h1 h'
    · exact hc1 h'.symm
  · intro h'
    cases cw with
    | nil => simp at h'
    | cons x xs =>
      simp only [List.cons_append, List.drop_succ_cons, List.drop_zero] at h' h2 ⊢
      rcases List.mem_append.1 h' with h'' | h''
      · exact h2 h''
      · exact hc2 (List.mem_singleton.1 h'').symm

theorem bufOk_single (c : Char) (h : c ≠ '\n') : bufOk [c] := by
  constructor
  · simp only [List.mem_singleton]
    intro h'; exact h h'.symm
  · simp

theorem wordOk_of_buf (cw : List Char) (font_ : Font) (h : bufOk cw) (hne : cw ≠ []) :
    wordOk (cw, font_) :=
  Or.inr ⟨h.1, h.2, hne⟩

theorem newWord_ok (font_ : Font) (s : WJState)
    (hws : ∀ wf ∈ s.ws, wordOk wf) (hcw : bufOk s.cw) :
    ∀ wf ∈ (newWord font_ s).ws, wordOk wf := by
  intro wf h
  rcases newWord_ws font_ s wf h with h' | ⟨h', hne⟩
  · exact hws wf h'
  · rw [h']; exact wordOk_of_buf s.cw font_ hcw hne

theorem wjCont_ok (s : WJState) (c : Char) (font : Font)
    (hws : ∀ wf ∈ s.ws, wordOk wf) (hcw : bufOk s.cw) (hc : c ≠ '\n')
    (hsp : c = ' ' → s.cw = []) :
    (∀ wf ∈ (wjCont s c font).ws, wordOk wf) ∧ bufOk (wjCont s c font).cw := by
  rw [wjCont]
  split
  · refine ⟨hws, ?_⟩
    by_cases hc2 : c = ' '
    · rw [hsp hc2]
      exact bufOk_single c hc
    · exact bufOk_concat s.cw c hcw hc hc2
  · exact ⟨newWord_ok font s hws hcw, bufOk_single c hc⟩

theorem wjStep_ok (s : WJState) (t : Char × Font)
    (hws : ∀ wf ∈ s.ws, wordOk wf) (hcw : bufOk s.cw) :
    (∀ wf ∈ (wjStep s t).ws, wordOk wf) ∧ bufOk (wjStep s t).cw := by
  rw [wjStep]
  split
  · next hsp =>
    split
    · next hnl =>
      refine ⟨?_, ?_⟩
      · intro wf h
        rcases newWord_ws _ _ wf h with h' | ⟨h', _⟩
        · exact newWord_ok s.cf s hws hcw wf h'
        · rw [h']
          simp only [newWord_cw]
          exact Or.inl rfl
      · rw [newWord_cw]
        exact bufOk_nil
    · next hnl =>
      have hc : t.1 = ' ' := by
        rcases Bool.or_eq_true_iff.1 hsp with h | h
        · exact absurd (by simpa using h) hnl
        · simpa using h
      refine wjCont_ok _ t.1 t.2 (newWord_ok s.cf s hws hcw) ?_ (by simp [hc]) ?_
      · rw [newWord_cw]; exact bufOk_nil
      · intro _; exact newWord_cw s.cf s
  · next hns =>
    have hc1 : t.1 ≠ '\n' := by
      intro h; exact hns (by simp [h])
    have hc2 : t.1 ≠ ' ' := by
      intro h; exact hns (by simp [h])
    exact wjCont_ok s t.1 t.2 hws hcw hc1 (fun h => absurd h hc2)

theorem wjFoldl_ok (lts : List (Char × Font)) (s : WJState)
    (hws : ∀ wf ∈ s.ws, wordOk wf) (hcw : bufOk s.cw) :
    (∀ wf ∈ (lts.foldl wjStep s).ws, wordOk wf) ∧ bufOk (lts.foldl wjStep s).cw := by
  induction lts generalizing s with
  | nil => exact ⟨hws, hcw⟩
  | cons t lts ih =>
    rw [List.foldl_cons]
    obtain ⟨h1, h2⟩ := wjStep_ok s t hws hcw
    exact ih (wjStep s t) h1 h2

theorem words_ok (lts : List (Char × Font)) (ws : List (List Char × Font))
    (h : words lts = some ws) : ∀ wf ∈ ws, wordOk wf := by
  rw [words.eq_def] at h
  match lts, h with
  | (c0, f0) :: rest, h =>
    simp only [Option.some.injEq] at h
    subst h
    obtain ⟨h1, h2⟩ := wjFoldl_ok ((c0, f0) :: rest) { ws := [], cf := f0, cw := [] }
      (by simp) bufOk_nil
    exact newWord_ok _ _ h1 h2

theorem newWord_ws_ne (font_ : Font) (s : WJState)
    (h : s.ws ≠ [] ∨ s.cw ≠ []) : (newWord font_ s).ws ≠ [] := by
  rw [newWord]
  split
  · next he =>
    rcases h with h | h
    · exact h
    · exact absurd (List.isEmpty_iff.1 he) h
  · simp

theorem wjCont_ne (s : WJState) (c : Char) (font : Font) :
    (wjCont s c font).ws ≠ [] ∨ (wjCont s c font).cw ≠ [] := by
  rw [wjCont]
  split
  · right; simp
  · right; simp

theorem wjStep_ne (s : WJState) (t : Char × Font) :
    (wjStep s t).ws ≠ [] ∨ (wjStep s t).cw ≠ [] := by
  rw [wjStep]
  split
  · split
    · left
      apply newWord_ws_ne
      right
      simp
    · exact wjCont_ne _ t.1 t.2
  · exact wjCont_ne s t.1 t.2

theorem wjFoldl_ne (lts : List (Char × Font)) (s : WJState)
    (h : s.ws ≠ [] ∨ s.cw ≠ []) :
    (lts.foldl wjStep s).ws ≠ [] ∨ (lts.foldl wjStep s).cw ≠ [] := by
  induction lts generalizing s with
  | nil => exact h
  | cons t lts ih => exact ih (wjStep s t) (wjStep_ne s t)

theorem words_ne_nil (lts : List (Char × Font)) (ws : List (List Char × Font))
    (h : words lts = some ws) : ws ≠ [] := by
  rw [words.eq_def] at h
  match lts, h with
  | (c0, f0) :: rest, h =>
    simp only [Option.some.injEq] at h
    subst h
    apply newWord_ws_ne
    rw [List.foldl_cons]
    exact wjFoldl_ne rest _ (wjStep_ne _ _)

theorem newWord_font (F : List Font) (font_ : Font) (s : WJState)
    (hws : ∀ wf ∈ s.ws, wf.2 ∈ F) (hf : font_ ∈ F) :
    ∀ wf ∈ (newWord font_ s).ws, wf.2 ∈ F := by
  intro wf h
  rcases newWord_ws font_ s wf h with h' | ⟨h', _⟩
  · exact hws wf h'
  · rw [h']; exact hf

theorem wjCont_font (F : List Font) (s : WJState) (c : Char) (font : Font)
    (hws : ∀ wf ∈ s.ws, wf.2 ∈ F) (hcf : s.cf ∈ F) (hf : font ∈ F) :
    (∀ wf ∈ (wjCont s c font).ws, wf.2 ∈ F) ∧ (wjCont s c font).cf ∈ F := by
  rw [wjCont]
  split
  · exact ⟨hws, hcf⟩
  · exact ⟨newWord_font F font s hws hf, hf⟩

theorem wjStep_font (F : List Font) (s : WJState) (t : Char × Font)
    (hws : ∀ wf ∈ s.ws, wf.2 ∈ F) (hcf : s.cf ∈ F) (hf : t.2 ∈ F) :
    (∀ wf ∈ (wjStep s t).ws, wf.2 ∈ F) ∧ (wjStep s t).cf ∈ F := by
  rw [wjStep]
  split
  · split
    · constructor
      · apply newWord_font F t.2 _ _ hf
        simp only [newWord_cf]
        exact newWord_font F s.cf s hws hcf
      · simp only [newWord_cf]
        exact hcf
    · exact wjCont_font F _ t.1 t.2 (newWord_font F s.cf s hws hcf)
        (by rw [newWord_cf]; exact hcf) hf
  · exact wjCont_font F s t.1 t.2 hws hcf hf

theorem wjFoldl_font (F : List Font) :
    ∀ (lts : List (Char × Font)) (s : WJState),
      (∀ t ∈ lts, t.2 ∈ F) → (∀ wf ∈ s.ws, wf.2 ∈ F) → s.cf ∈ F →
      (∀ wf ∈ (lts.foldl wjStep s).ws, wf.2 ∈ F) ∧ (lts.foldl wjStep s).cf ∈ F
  | [], s, _, hws, hcf => ⟨hws, hcf⟩
  | t :: lts, s, hlts, hws, hcf => by
    rw [List.foldl_cons]
    obtain ⟨h1, h2⟩ := wjStep_font F s t hws hcf (hlts t (List.mem_cons_self t lts))
    exact wjFoldl_font F lts (wjStep s t)
      (fun t' ht' => hlts t' (List.mem_cons_of_mem t ht')) h1 h2

theorem words_font_mem (F : List Font) (lts : List (Char × Font))
    (ws : List (List Char × Font)) (h : words lts = some ws)
    (hlts : ∀ t ∈ lts, t.2 ∈ F) : ∀ wf ∈ ws, wf.2 ∈ F := by
  rw [words.eq_def] at h
  match lts, h with
  | (c0, f0) :: rest, h =>
    simp only [Option.some.injEq] at h
    subst h
    obtain ⟨h1, h2⟩ := wjFoldl_font F ((c0, f0) :: rest) { ws := [], cf := f0, cw := [] }
      hlts (by simp) (hlts (c0, f0) (List.mem_cons_self _ _))
    exact newWord_font F _ _ h1 h2

theorem linePixSum_nil : linePixSum [] = 0 := rfl

theorem linePixSum_concat (line : List (List Char × Font)) (wf : List Char × Font) :
    linePixSum (line ++ [wf]) = linePixSum line + wordPixLen wf.1 wf.2 := by
  rw [linePixSum, linePixSum, List.map_append, List.sum_append]
  simp

theorem linePixSum_single (wf : List Char × Font) :
    linePixSum [wf] = wordPixLen wf.1 wf.2 := by
  rw [linePixSum]
  simp

theorem wordPixLen_pos (w : List Char) (f : Font) (h : 0 ≤ f.letter_width) :
    1 ≤ wordPixLen w f := by
  have hq : (0 : ℚ) ≤ (w.length : ℚ) * f.letter_width :=
    mul_nonneg (by positivity) h
  rw [wordPixLen, pyInt_eq_floor _ (by linarith)]
  rw [Int.le_floor]
  push_cast
  linarith

theorem wordPixLen_mono (w w' : List Char) (f : Font) (h : 0 ≤ f.letter_width)
    (hlen : w'.length ≤ w.length) : wordPixLen w' f ≤ wordPixLen w f := by
  have hq : (0 : ℚ) ≤ (w'.length : ℚ) * f.letter_width :=
    mul_nonneg (by positivity) h
  have hq2 : ((w'.length : ℚ)) * f.letter_width ≤ (w.length : ℚ) * f.letter_width := by
    apply mul_le_mul_of_nonneg_right _ h
    exact_mod_cast hlen
  rw [wordPixLen, wordPixLen, pyInt_eq_floor _ (by linarith), pyInt_eq_floor _ (by linarith)]
  apply Int.floor_mono
  linarith

theorem wtForcedLoop (W : ℕ) (wp : ℤ) (w : List Char) (f : Font) (plen : ℕ) :
    ∀ (k : ℕ) (s : WTState), 0 < k → (s.cur = [] → s.budget = (W : ℤ)) →
      (List.range k).foldl
        (fun s' idx =>
          wtAddWord wp ((w.drop (idx * plen)).take plen, f) (wtNewline W s')) s =
      { done := (wtNewline W s).done ++ (List.range (k - 1)).map
          (fun i => [((w.drop (i * plen)).take plen, f)]),
        cur := [((w.drop ((k - 1) * plen)).take plen, f)],
        budget := (W : ℤ) - wp } := by
  intro k
  induction k with
  | zero => intro s h _; omega
  | succ k ih =>
    intro s _ hb
    cases k with
    | zero =>
      rw [show List.range 1 = [0] from rfl, List.foldl_cons, List.foldl_nil]
      rw [wtNewline, wtAddWord]
      split
      · next hcur =>
        have hc : s.cur = [] := List.isEmpty_iff.1 hcur
        simp [hc, hb hc]
      · simp
    | succ k =>
      rw [List.range_succ, List.foldl_append, ih s (Nat.succ_pos k) hb]
      rw [List.foldl_cons, List.foldl_nil]
      have hne : ¬ ([((w.drop ((k + 1 - 1) * plen)).take plen, f)] :
          List (List Char × Font)).isEmpty = true := by simp
      rw [wtNewline, wtAddWord]
      simp only [hne, if_false]
      have hr : List.range (k + 1 + 1 - 1) = List.range (k + 1 - 1) ++ [k] := by
        simp [List.range_succ]
      rw [hr]
      simp [List.map_append]

theorem wtStep_forced (W : ℕ) (s : WTState) (w : List Char) (f : Font)
    (hnl : w ≠ ['\n']) (hW : (W : ℤ) < wordPixLen w f)
    (hb : s.cur = [] → s.budget = (W : ℤ)) (hbW : s.budget ≤ (W : ℤ)) :
    wtStep W s (w, f) =
      { done := (wtNewline W s).done ++
          (List.range (((wordPixLen w f - 1).fdiv (W : ℤ) + 1).toNat - 1)).map
            (fun i => [((w.drop (i * (W / f.letter_height))).take (W / f.letter_height), f)]),
        cur := [((w.drop ((((wordPixLen w f - 1).fdiv (W : ℤ) + 1).toNat - 1) *
            (W / f.letter_height))).take (W / f.letter_height), f)],
        budget := (W : ℤ) - wordPixLen w f } := by
  have hfd : 0 ≤ (wordPixLen w f - 1).fdiv (W : ℤ) :=
    Int.fdiv_nonneg (by omega) (by positivity)
  have hk : 0 < ((wordPixLen w f - 1).fdiv (W : ℤ) + 1).toNat := by omega
  rw [wtStep]
  simp only [if_neg hnl, if_neg (show ¬ (wordPixLen (w, f).1 (w, f).2 ≤ s.budget) by
    simp only []; omega),
    if_neg (show ¬ (wordPixLen (w, f).1 (w, f).2 ≤ (W : ℤ)) by simp only []; omega)]
  exact wtForcedLoop W (wordPixLen w f) w f (W / f.letter_height) _ s hk hb

theorem wtAddWord_done (wp : ℤ) (wf : List Char × Font) (s : WTState) :
    (wtAddWord wp wf s).done = s.done := rfl

theorem wtAddWord_cur (wp : ℤ) (wf : List Char × Font) (s : WTState) :
    (wtAddWord wp wf s).cur = s.cur ++ [wf] := rfl

theorem wtNewline_done_ne (W : ℕ) (s : WTState) (h : ∀ l ∈ s.done, l ≠ []) :
    ∀ l ∈ (wtNewline W s).done, l ≠ [] := by
  rw [wtNewline]
  split
  · exact h
  · next hne =>
    intro l hl
    rcases List.mem_append.1 hl with h' | h'
    · exact h l h'
    · rw [List.mem_singleton.1 h']
      intro he
      rw [he] at hne
      simp at hne

theorem wtStep_nl (W : ℕ) (s : WTState) (wf : List Char × Font)
    (h : wf.1 = ['\n']) : wtStep W s wf = wtNewline W s := by
  rw [wtStep, if_pos h]

theorem wtLoop_done_ne (W : ℕ) (wp : ℤ) (w : List Char) (f : Font) (plen : ℕ) :
    ∀ (idxs : List ℕ) (s : WTState), (∀ l ∈ s.done, l ≠ []) →
      ∀ l ∈ (idxs.foldl (fun s' idx =>
          wtAddWord wp ((w.drop (idx * plen)).take plen, f) (wtNewline W s')) s).done,
        l ≠ []
  | [], _, h => h
  | i :: idxs, s, h => by
    rw [List.foldl_cons]
    exact wtLoop_done_ne W wp w f plen idxs _
      (by rw [wtAddWord_done]; exact wtNewline_done_ne W s h)

theorem wtStep_done_ne (W : ℕ) (s : WTState) (wf : List Char × Font)
    (h : ∀ l ∈ s.done, l ≠ []) : ∀ l ∈ (wtStep W s wf).done, l ≠ [] := by
  simp only [wtStep]
  split
  · exact wtNewline_done_ne W s h
  · split
    · rw [wtAddWord_done]; exact h
    · split
      · rw [wtAddWord_done]; exact wtNewline_done_ne W s h
      · exact wtLoop_done_ne W _ wf.1 wf.2 _ _ s h

theorem wtFoldl_done_ne (W : ℕ) :
    ∀ (ws : List (List Char × Font)) (s : WTState), (∀ l ∈ s.done, l ≠ []) →
      ∀ l ∈ (ws.foldl (wtStep W) s).done, l ≠ []
  | [], _, h => h
  | wf :: ws, s, h => by
    rw [List.foldl_cons]
    exact wtFoldl_done_ne W ws _ (wtStep_done_ne W s wf h)

theorem wtLoop_cur_ne (W : ℕ) (wp : ℤ) (w : List Char) (f : Font) (plen : ℕ)
    (idxs : List ℕ) (s : WTState) (h : idxs ≠ []) :
    (idxs.foldl (fun s' idx =>
        wtAddWord wp ((w.drop (idx * plen)).take plen, f) (wtNewline W s')) s).cur ≠ [] := by
  rcases List.eq_nil_or_concat idxs with rfl | ⟨l, i, rfl⟩
  · exact absurd rfl h
  · rw [List.concat_eq_append, List.foldl_append, List.foldl_cons, List.foldl_nil,
      wtAddWord_cur]
    simp

theorem wtStep_cur_ne (W : ℕ) (s : WTState) (wf : List Char × Font)
    (hnl : wf.1 ≠ ['\n']) : (wtStep W s wf).cur ≠ [] := by
  simp only [wtStep, if_neg hnl]
  split
  · rw [wtAddWord_cur]; simp
  · split
    · rw [wtAddWord_cur]; simp
    · next h1 h2 =>
      apply wtLoop_cur_ne
      simp only [ne_eq, List.range_eq_nil]
      have hpos : 0 ≤ (wordPixLen wf.1 wf.2 - 1).fdiv (W : ℤ) :=
        Int.fdiv_nonneg (by omega) (by positivity)
      omega

theorem wtFoldl_last_nl (W : ℕ) :
    ∀ (ws : List (List Char × Font)) (s : WTState), ws ≠ [] →
      (ws.foldl (wtStep W) s).cur = [] →
      ∃ wf, ws.getLast? = some wf ∧ wf.1 = ['\n'] := by
  intro ws s hne hcur
  rcases List.eq_nil_or_concat ws with rfl | ⟨l, wf, rfl⟩
  · exact absurd rfl hne
  · rw [List.concat_eq_append, List.foldl_append, List.foldl_cons, List.foldl_nil] at hcur
    refine ⟨wf, by rw [List.concat_eq_append]; exact List.getLast?_concat l, ?_⟩
    by_contra hwf
    exact wtStep_cur_ne W _ wf hwf hcur

theorem wtNewline_noNl (W : ℕ) (s : WTState)
    (hd : ∀ l ∈ s.done, ∀ wf ∈ l, '\n' ∉ wf.1) (hc : ∀ wf ∈ s.cur, '\n' ∉ wf.1) :
    (∀ l ∈ (wtNewline W s).done, ∀ wf ∈ l, '\n' ∉ wf.1) ∧
    (∀ wf ∈ (wtNewline W s).cur, '\n' ∉ wf.1) := by
  rw [wtNewline]
  split
  · exact ⟨hd, hc⟩
  · refine ⟨?_, by simp⟩
    intro l hl
    rcases List.mem_append.1 hl with h' | h'
    · exact hd l h'
    · rw [List.mem_singleton.1 h']
      exact hc

theorem wtLoop_noNl (W : ℕ) (wp : ℤ) (w : List Char) (f : Font) (plen : ℕ)
    (hw : '\n' ∉ w) :
    ∀ (idxs : List ℕ) (s : WTState),
      (∀ l ∈ s.done, ∀ wf ∈ l, '\n' ∉ wf.1) → (∀ wf ∈ s.cur, '\n' ∉ wf.1) →
      (∀ l ∈ (idxs.foldl (fun s' idx =>
          wtAddWord wp ((w.drop (idx * plen)).take plen, f) (wtNewline W s')) s).done,
        ∀ wf ∈ l, '\n' ∉ wf.1) ∧
      (∀ wf ∈ (idxs.foldl (fun s' idx =>
          wtAddWord wp ((w.drop (idx * plen)).take plen, f) (wtNewline W s')) s).cur,
        '\n' ∉ wf.1)
  | [], _, hd, hc => ⟨hd, hc⟩
  | i :: idxs, s, hd, hc => by
    rw [List.foldl_cons]
    obtain ⟨hd1, hc1⟩ := wtNewline_noNl W s hd hc
    apply wtLoop_noNl W wp w f plen hw idxs _
    · rw [wtAddWord_done]; exact hd1
    · rw [wtAddWord_cur]
      intro wf hwf
      rcases List.mem_append.1 hwf with h' | h'
      · exact hc1 wf h'
      · rw [List.mem_singleton.1 h']
        intro hmem
        exact hw (List.drop_subset _ w (List.take_subset _ _ hmem))

theorem wtStep_noNl (W : ℕ) (s : WTState) (wf : List Char × Font)
    (hwf : wf.1 = ['\n'] ∨ '\n' ∉ wf.1)
    (hd : ∀ l ∈ s.done, ∀ wf' ∈ l, '\n' ∉ wf'.1) (hc : ∀ wf' ∈ s.cur, '\n' ∉ wf'.1) :
    (∀ l ∈ (wtStep W s wf).done, ∀ wf' ∈ l, '\n' ∉ wf'.1) ∧
    (∀ wf' ∈ (wtStep W s wf).cur, '\n' ∉ wf'.1) := by
  simp only [wtStep]
  split
  · exact wtNewline_noNl W s hd hc
  · next hnl =>
    have hw : '\n' ∉ wf.1 := hwf.resolve_left hnl
    have hadd : ∀ (s' : WTState), (∀ l ∈ s'.done, ∀ wf' ∈ l, '\n' ∉ wf'.1) →
        (∀ wf' ∈ s'.cur, '\n' ∉ wf'.1) →
        (∀ l ∈ (wtAddWord (wordPixLen wf.1 wf.2) wf s').done, ∀ wf' ∈ l, '\n' ∉ wf'.1) ∧
        (∀ wf' ∈ (wtAddWord (wordPixLen wf.1 wf.2) wf s').cur, '\n' ∉ wf'.1) := by
      intro s' hd' hc'
      refine ⟨by rw [wtAddWord_done]; exact hd', ?_⟩
      rw [wtAddWord_cur]
      intro wf' hwf'
      rcases List.mem_append.1 hwf' with h' | h'
      · exact hc' wf' h'
      · rw [List.mem_singleton.1 h']
        exact hw
    split
    · exact hadd s hd hc
    · split
      · obtain ⟨hd1, hc1⟩ := wtNewline_noNl W s hd hc
        exact hadd _ hd1 hc1
      · exact wtLoop_noNl W _ wf.1 wf.2 _ hw _ s hd hc

theorem wtFoldl_noNl (W : ℕ) :
    ∀ (ws : List (List Char × Font)) (s : WTState),
      (∀ wf ∈ ws, wf.1 = ['\n'] ∨ '\n' ∉ wf.1) →
      (∀ l ∈ s.done, ∀ wf ∈ l, '\n' ∉ wf.1) → (∀ wf ∈ s.cur, '\n' ∉ wf.1) →
      (∀ l ∈ (ws.foldl (wtStep W) s).done, ∀ wf ∈ l, '\n' ∉ wf.1) ∧
      (∀ wf ∈ (ws.foldl (wtStep W) s).cur, '\n' ∉ wf.1)
  | [], _, _, hd, hc => ⟨hd, hc⟩
  | wf :: ws, s, hws, hd, hc => by
    rw [List.foldl_cons]
    obtain ⟨hd1, hc1⟩ := wtStep_noNl W s wf (hws wf (List.mem_cons_self _ _)) hd hc
    exact wtFoldl_noNl W ws _ (fun wf' hwf' => hws wf' (List.mem_cons_of_mem _ hwf')) hd1 hc1

theorem tableFromWords_noNl (W : ℕ) (ws : List (List Char × Font))
    (hws : ∀ wf ∈ ws, wf.1 = ['\n'] ∨ '\n' ∉ wf.1) :
    ∀ l ∈ tableFromWords W ws, ∀ wf ∈ l, '\n' ∉ wf.1 := by
  obtain ⟨hd, hc⟩ := wtFoldl_noNl W ws { done := [], cur := [], budget := (W : ℤ) }
    hws (fun l hl => absurd hl (List.not_mem_nil l))
    (fun wf hwf => absurd hwf (List.not_mem_nil wf))
  rw [tableFromWords]
  intro l hl
  rcases List.mem_append.1 hl with h' | h'
  · exact hd l h'
  · rw [List.mem_singleton.1 h']
    exact hc

theorem wtNewline_cur (W : ℕ) (s : WTState) : (wtNewline W s).cur = [] := by
  rw [wtNewline]
  split
  · next h => exact List.isEmpty_iff.1 h
  · rfl

theorem wtNewline_budget (W : ℕ) (s : WTState)
    (h5 : s.cur = [] → s.budget = (W : ℤ)) : (wtNewline W s).budget = (W : ℤ) := by
  rw [wtNewline]
  split
  · next h => exact h5 (List.isEmpty_iff.1 h)
  · rfl

theorem goodLine_nil (W : ℕ) : goodLine W [] :=
  Or.inl (by rw [linePixSum_nil]; positivity)

theorem goodLine_single (W : ℕ) (wf : List Char × Font) : goodLine W [wf] := by
  rcases le_or_lt (wordPixLen wf.1 wf.2) (W : ℤ) with h | h
  · exact Or.inl (by rw [linePixSum_single]; exact h)
  · exact Or.inr ⟨wf, rfl, h⟩

theorem wtNewline_inv (W : ℕ) (s : WTState) (h : wtInv W s) : wtInv W (wtNewline W s) := by
  obtain ⟨h1, h2, h3, h4, h5⟩ := h
  rw [wtNewline]
  split
  · exact ⟨h1, h2, h3, h4, h5⟩
  · refine ⟨?_, goodLine_nil W, ?_, le_refl _, fun _ => rfl⟩
    · intro l hl
      rcases List.mem_append.1 hl with h' | h'
      · exact h1 l h'
      · rw [List.mem_singleton.1 h']
        exact h2
    · rw [linePixSum_nil]
      simp

theorem wtStep_add1 (W : ℕ) (s : WTState) (wf : List Char × Font)
    (hnl : wf.1 ≠ ['\n']) (hbud : wordPixLen wf.1 wf.2 ≤ s.budget) :
    wtStep W s wf = wtAddWord (wordPixLen wf.1 wf.2) wf s := by
  simp only [wtStep]
  rw [if_neg hnl, if_pos hbud]

theorem wtStep_add2 (W : ℕ) (s : WTState) (wf : List Char × Font)
    (hnl : wf.1 ≠ ['\n']) (hbud : ¬ wordPixLen wf.1 wf.2 ≤ s.budget)
    (hW : wordPixLen wf.1 wf.2 ≤ (W : ℤ)) :
    wtStep W s wf = wtAddWord (wordPixLen wf.1 wf.2) wf (wtNewline W s) := by
  simp only [wtStep]
  rw [if_neg hnl, if_neg hbud, if_pos hW]

theorem wordPixLen_frag_le (w : List Char) (f : Font) (hlw : 0 ≤ f.letter_width)
    (i plen : ℕ) : wordPixLen ((w.drop i).take plen) f ≤ wordPixLen w f := by
  apply wordPixLen_mono w _ f hlw
  calc ((w.drop i).take plen).length ≤ (w.drop i).length := by
        rw [List.length_take]; exact min_le_right _ _
    _ ≤ w.length := by rw [List.length_drop]; omega

theorem wtStep_inv (W : ℕ) (s : WTState) (wf : List Char × Font)
    (hlw : 0 ≤ wf.2.letter_width) (h : wtInv W s) : wtInv W (wtStep W s wf) := by
  by_cases hnl : wf.1 = ['\n']
  · rw [wtStep_nl W s wf hnl]
    exact wtNewline_inv W s h
  have hwp : 1 ≤ wordPixLen wf.1 wf.2 := wordPixLen_pos _ _ hlw
  obtain ⟨h1, h2, h3, h4, h5⟩ := h
  by_cases hW : wordPixLen wf.1 wf.2 ≤ (W : ℤ)
  · by_cases hbud : wordPixLen wf.1 wf.2 ≤ s.budget
    · rw [wtStep_add1 W s wf hnl hbud]
      refine ⟨h1, ?_, ?_, ?_, ?_⟩
      · apply Or.inl
        rw [wtAddWord_cur, linePixSum_concat]
        omega
      · rw [wtAddWord_cur, linePixSum_concat]
        show _ ≤ (W : ℤ) - (s.budget - wordPixLen wf.1 wf.2)
        omega
      · show s.budget - wordPixLen wf.1 wf.2 ≤ (W : ℤ)
        omega
      · rw [wtAddWord_cur]
        intro he
        simp at he
    · rw [wtStep_add2 W s wf hnl hbud hW]
      have hinv1 := wtNewline_inv W s ⟨h1, h2, h3, h4, h5⟩
      have hcur := wtNewline_cur W s
      have hbudn := wtNewline_budget W s h5
      refine ⟨hinv1.1, ?_, ?_, ?_, ?_⟩
      · apply Or.inl
        rw [wtAddWord_cur, hcur, List.nil_append, linePixSum_single]
        exact hW
      · rw [wtAddWord_cur, hcur, List.nil_append, linePixSum_single]
        show _ ≤ (W : ℤ) - ((wtNewline W s).budget - wordPixLen wf.1 wf.2)
        rw [hbudn]
        omega
      · show (wtNewline W s).budget - wordPixLen wf.1 wf.2 ≤ (W : ℤ)
        rw [hbudn]
        omega
      · rw [wtAddWord_cur, hcur, List.nil_append]
        intro he
        simp at he
  · push_neg at hW
    rw [wtStep_forced W s wf.1 wf.2 hnl hW h5 h4]
    have hinv1 := wtNewline_inv W s ⟨h1, h2, h3, h4, h5⟩
    refine ⟨?_, goodLine_single W _, ?_,
      by show (W : ℤ) - wordPixLen wf.1 wf.2 ≤ (W : ℤ); omega, ?_⟩
    · intro l hl
      rcases List.mem_append.1 hl with h' | h'
      · exact hinv1.1 l h'
      · rcases List.mem_map.1 h' with ⟨i, _, hi⟩
        rw [← hi]
        exact goodLine_single W _
    · rw [linePixSum_single]
      show wordPixLen _ wf.2 ≤ (W : ℤ) - ((W : ℤ) - wordPixLen wf.1 wf.2)
      refine le_trans (wordPixLen_frag_le wf.1 wf.2 hlw _ _) ?_
      omega
    · intro he
      simp at he

theorem wtFoldl_inv (W : ℕ) :
    ∀ (ws : List (List Char × Font)) (s : WTState),
      (∀ wf ∈ ws, 0 ≤ wf.2.letter_width) → wtInv W s →
      wtInv W (ws.foldl (wtStep W) s)
  | [], _, _, h => h
  | wf :: ws, s, hws, h => by
    rw [List.foldl_cons]
    exact wtFoldl_inv W ws _ (fun wf' hwf' => hws wf' (List.mem_cons_of_mem _ hwf'))
      (wtStep_inv W s wf (hws wf (List.mem_cons_self _ _)) h)

theorem wtInv_init (W : ℕ) : wtInv W { done := [], cur := [], budget := (W : ℤ) } := by
  refine ⟨fun l hl => absurd hl (List.not_mem_nil l), goodLine_nil W, ?_, le_refl _, fun _ => rfl⟩
  rw [linePixSum_nil]
  simp

theorem tableFromWords_good (W : ℕ) (ws : List (List Char × Font))
    (hws : ∀ wf ∈ ws, 0 ≤ wf.2.letter_width) :
    ∀ line ∈ tableFromWords W ws, goodLine W line := by
  have hinv := wtFoldl_inv W ws _ hws (wtInv_init W)
  rw [tableFromWords]
  intro line hl
  rcases List.mem_append.1 hl with h' | h'
  · exact hinv.1 line h'
  · rw [List.mem_singleton.1 h']
    exact hinv.2.1

theorem pyStrip_all_ws (text : List Char) (h : ∀ c ∈ text, isStripChar c = true) :
    pyStrip text = [] := by
  rw [pyStrip]
  rw [List.dropWhile_eq_nil_iff.2 h]
  simp

theorem letters_nil_of_ws (fonts : List Font) (text : List Char)
    (h : ∀ c ∈ text, isStripChar c = true) : letters fonts text = [] := by
  rw [letters, pyStrip_all_ws text h]
  rfl

theorem ceil_div_eq (wp : ℤ) (W : ℕ) (h0 : 0 < W) (hW : (W : ℤ) < wp) :
    (wp - 1).fdiv (W : ℤ) + 1 = ⌈(wp : ℚ) / (W : ℚ)⌉ := by
  have hWz : (0 : ℤ) < (W : ℤ) := by exact_mod_cast h0
  have hWq : (0 : ℚ) < (W : ℚ) := by exact_mod_cast h0
  rw [Int.fdiv_eq_ediv _ (le_of_lt hWz)]
  have hdm := Int.ediv_add_emod (wp - 1) (W : ℤ)
  have hm1 := Int.emod_nonneg (wp - 1) (ne_of_gt hWz)
  have hm2 := Int.emod_lt_of_pos (wp - 1) hWz
  have h1 : (W : ℤ) * ((wp - 1) / (W : ℤ)) < wp := by linarith
  have h2 : wp ≤ (W : ℤ) * ((wp - 1) / (W : ℤ)) + (W : ℤ) := by linarith
  symm
  rw [Int.ceil_eq_iff]
  refine ⟨?_, ?_⟩
  · have e1 : (((wp - 1) / (W : ℤ) + 1 : ℤ) : ℚ) - 1 = (((wp - 1) / (W : ℤ) : ℤ) : ℚ) := by
      push_cast; ring
    rw [e1, lt_div_iff hWq]
    have e2 : ((((wp - 1) / (W : ℤ) : ℤ)) : ℚ) * (W : ℚ) =
        (((W : ℤ) * ((wp - 1) / (W : ℤ)) : ℤ) : ℚ) := by push_cast; ring
    rw [e2]
    exact_mod_cast h1
  · rw [div_le_iff hWq]
    have e3 : (((wp - 1) / (W : ℤ) + 1 : ℤ) : ℚ) * (W : ℚ) =
        (((W : ℤ) * ((wp - 1) / (W : ℤ)) + (W : ℤ) : ℤ) : ℚ) := by push_cast; ring
    rw [e3]
    exact_mod_cast h2

theorem foldlMax_le (a : ℕ) : ∀ (l : List ℕ), a ≤ l.foldl max a
  | [] => le_refl a
  | x :: l => le_trans (le_max_left a x) (foldlMax_le (max a x) l)

theorem le_foldlMax (x : ℕ) : ∀ (l : List ℕ) (a : ℕ), x ∈ l → x ≤ l.foldl max a
  | [], _, h => absurd h (List.not_mem_nil x)
  | y :: l, a, h => by
    rw [List.foldl_cons]
    rcases List.mem_cons.1 h with rfl | h'
    · exact le_trans (le_max_right a x) (foldlMax_le (max a x) l)
    · exact le_foldlMax x l (max a y) h'

theorem foldlMax_cases : ∀ (l : List ℕ) (a : ℕ), l.foldl max a = a ∨ l.foldl max a ∈ l
  | [], a => Or.inl rfl
  | x :: l, a => by
    rw [List.foldl_cons]
    rcases foldlMax_cases l (max a x) with h | h
    · rcases max_choice a x with h' | h'
      · exact Or.inl (by rw [h, h'])
      · exact Or.inr (by rw [h, h']; exact List.mem_cons_self x l)
    · exact Or.inr (List.mem_cons_of_mem x h)

theorem line_heigth_ge (fonts : List Font) (f : Font) (h : f ∈ fonts) :
    f.letter_height ≤ line_heigth fonts :=
  le_foldlMax f.letter_height (fonts.map Font.letter_height) 0
    (List.mem_map.2 ⟨f, h, rfl⟩)

theorem line_heigth_attained (font0 : Font) (fs : List Font) :
    ∃ f ∈ font0 :: fs, line_heigth (font0 :: fs) = f.letter_height := by
  rcases foldlMax_cases ((font0 :: fs).map Font.letter_height) 0 with h | h
  · refine ⟨font0, List.mem_cons_self font0 fs, ?_⟩
    have h2 := line_heigth_ge (font0 :: fs) font0 (List.mem_cons_self font0 fs)
    rw [line_heigth] at h2 ⊢
    omega
  · rcases List.mem_map.1 h with ⟨f, hf, hval⟩
    exact ⟨f, hf, hval.symm⟩

theorem word_table_ab_cd :
    word_table [fontA] ['a', 'b', '\n', 'c', 'd'] =
      some [[(['a', 'b'], fontA)], [(['c', 'd'], fontA)]] := by
  have hw : words (letters [fontA] ['a', 'b', '\n', 'c', 'd']) =
      some [(['a', 'b'], fontA), (['\n'], fontA), (['c', 'd'], fontA)] := rfl
  have hab : wordPixLen ['a', 'b'] fontA = 21 := by norm_num [wordPixLen, pyInt, fontA]
  have hcd : wordPixLen ['c', 'd'] fontA = 21 := by norm_num [wordPixLen, pyInt, fontA]
  rw [word_table, hw, Option.map_some']
  simp only [tableFromWords, List.foldl, wtStep, hab, hcd]
  norm_num [wtAddWord, wtNewline, IMAGE_PIX_WIDTH, PIXELS_PER_LINE, FONT_SIZE]

/-- **C3.** For every character of the input remaining after stripping
leading/trailing spaces and newlines, `TextProcessor.letters` emits one
`(character, font)` token whose font is the first font of the ordered font
set whose `has_symbol` accepts the character; a character supported by no
font produces no token and no error, except that an unsupported newline is
emitted tagged with the first font of the set, and an unsupported U+FE0F is
silently dropped. -/
theorem c3_segmenter_fallback (fonts : List Font) (font0 : Font) (fs : List Font)
    (text : List Char) (hf : fonts = font0 :: fs) :
    letters fonts text = (pyStrip text).flatMap (emitLetter fonts) ∧
    (∀ c f, fonts.find? (fun fnt => fnt.has_symbol c) = some f →
      emitLetter fonts c = [(c, f)]) ∧
    (∀ c, fonts.find? (fun fnt => fnt.has_symbol c) = none → c ≠ '\n' →
      emitLetter fonts c = []) ∧
    (fonts.find? (fun fnt => fnt.has_symbol endOfTgMsg) = none →
      emitLetter fonts endOfTgMsg = []) ∧
    (fonts.find? (fun fnt => fnt.has_symbol '\n') = none →
      emitLetter fonts '\n' = [('\n', font0)]) := by
  refine ⟨letters_eq_flatMap fonts text, ?_, ?_, ?_, ?_⟩
  · intro c f h
    rw [emitLetter.eq_def, h]
  · intro c h hne
    rw [emitLetter.eq_def, h]
    simp only [if_neg hne]
    split <;> rfl
  · intro h
    rw [emitLetter.eq_def, h]
    rw [if_neg (by decide : ¬ (endOfTgMsg = '\n')), if_pos rfl]
  · intro h
    rw [emitLetter.eq_def, h, if_pos rfl, hf]

theorem c3_segmenter_witness :
    letters [fontA] ['a'] = (pyStrip ['a']).flatMap (emitLetter [fontA]) :=
  (c3_segmenter_fallback [fontA] fontA [] ['a'] rfl).1

/-- **C4, counterexample.**  On the token stream of `"a b"` (all in one font)
the word joiner emits the word `" b"`, which contains a space: the space
token closes the word `"a"` but, lacking a `continue`, the space itself is
appended to the fresh buffer and survives in the next emitted word. -/
theorem c4_space_counterexample :
    words [('a', fontA), (' ', fontA), ('b', fontA)] =
      some [(['a'], fontA), ([' ', 'b'], fontA)] ∧
    ' ' ∈ ([' ', 'b'] : List Char) ∧ ([' ', 'b'] : List Char) ≠ ['\n'] :=
  ⟨rfl, by decide, by decide⟩

/-- **C4, amended.**  Every word emitted by `TextProcessor.words` is either
the lone-newline word, or is nonempty, contains no newline, and contains a
space at most as its first character: a space or newline token does close
the current buffer, and a newline never leaks into an ordinary word, but the
space character itself is appended to the freshly cleared buffer and can
appear as the leading character of the next emitted word. -/
theorem c4_word_contents (lts : List (Char × Font)) (ws : List (List Char × Font))
    (h : words lts = some ws) :
    ∀ wf ∈ ws, wf.1 = ['\n'] ∨ ('\n' ∉ wf.1 ∧ ' ' ∉ wf.1.drop 1 ∧ wf.1 ≠ []) := by
  intro wf hwf
  exact words_ok lts ws h wf hwf

theorem c4_word_contents_witness :
    ([' ', 'b'] : List Char) = ['\n'] ∨
    ('\n' ∉ ([' ', 'b'] : List Char) ∧ ' ' ∉ ([' ', 'b'] : List Char).drop 1 ∧
      ([' ', 'b'] : List Char) ≠ []) :=
  c4_word_contents [('a', fontA), (' ', fontA), ('b', fontA)] _ rfl ([' ', 'b'], fontA)
    (List.mem_cons_of_mem _ (List.mem_cons_self _ _))

/-- **C5 (code bug).**  On an input consisting only of spaces and newlines the
stripped text is empty, `letters` returns no tokens, and
`TextProcessor.words` hits `letters[0][1]` on an empty list: CPython raises
`IndexError` (modelled by `none`), so `word_table` and `compile_text` raise
instead of returning the one-empty-line table the spec describes. -/
theorem c5_whitespace_input_raises (fonts : List Font) (text : List Char)
    (h : ∀ c ∈ text, c = ' ' ∨ c = '\n') :
    words (letters fonts text) = none ∧ word_table fonts text = none ∧
    compile_text fonts text = none := by
  have hs : ∀ c ∈ text, isStripChar c = true := by
    intro c hc
    rcases h c hc with rfl | rfl <;> rfl
  have h1 : letters fonts text = [] := letters_nil_of_ws fonts text hs
  refine ⟨by rw [h1]; rfl, ?_, ?_⟩
  · rw [word_table, h1]
    rfl
  · rw [compile_text, word_table, h1]
    rfl

theorem c5_whitespace_witness :
    words (letters [fontA] [' ']) = none ∧ word_table [fontA] [' '] = none ∧
    compile_text [fontA] [' '] = none :=
  c5_whitespace_input_raises [fontA] [' '] (by decide)

/-- **C10.**  `User.get_msg_count(name)`: with no stored row for `name` it
creates the row (with the column default) and returns the default count `1`;
with an existing row it returns the stored counter and leaves the table
unchanged. -/
theorem c10_get_msg_count :
    (∀ (db : List (List Char × ℤ)) (name : List Char),
      selectMsgCount db name = none →
      get_msg_count db name = (1, db ++ [(name, 1)]) ∧
      selectMsgCount (get_msg_count db name).2 name = some 1) ∧
    (∀ (db : List (List Char × ℤ)) (name : List Char) (c : ℤ),
      selectMsgCount db name = some c → get_msg_count db name = (c, db)) := by
  constructor
  · intro db name h
    have h2 : get_msg_count db name = (1, db ++ [(name, 1)]) := by
      rw [get_msg_count, h]
      rfl
    refine ⟨h2, ?_⟩
    rw [h2]
    have hf : db.find? (fun row => row.1 == name) = none := by
      rcases hfind : db.find? (fun row => row.1 == name) with _ | x
      · exact hfind
      · rw [selectMsgCount, hfind] at h
        simp at h
    rw [selectMsgCount, List.find?_append, hf]
    simp

  · intro db name c h
    rw [get_msg_count, h]

theorem c10_get_msg_witness :
    get_msg_count [] ['u'] = (1, [(['u'], 1)]) ∧
    selectMsgCount (get_msg_count [] ['u']).2 ['u'] = some 1 :=
  c10_get_msg_count.1 [] ['u'] rfl

/-- **C6.**  The input `"ab\ncd"` (both words fitting easily) wraps to
exactly two lines `[["ab"], ["cd"]]`; a literal newline word is never placed
in any line of any table the pipeline produces; and `newline()` starts a new
line only when the current line is nonempty (it is the identity on a state
whose current line is empty). -/
theorem c6_newline_new_line :
    word_table [fontA] ['a', 'b', '\n', 'c', 'd'] =
      some [[(['a', 'b'], fontA)], [(['c', 'd'], fontA)]] ∧
    (∀ (fonts : List Font) (text : List Char) (table : List (List (List Char × Font))),
      word_table fonts text = some table →
      ∀ line ∈ table, ∀ wf ∈ line, wf.1 ≠ ['\n']) ∧
    (∀ (W : ℕ) (s : WTState), s.cur = [] → wtNewline W s = s) := by
  refine ⟨word_table_ab_cd, ?_, ?_⟩
  · intro fonts text table h line hl wf hwf heq
    rw [word_table] at h
    rcases Option.map_eq_some'.1 h with ⟨ws, hws, rfl⟩
    have hok : ∀ wf' ∈ ws, wf'.1 = ['\n'] ∨ '\n' ∉ wf'.1 := by
      intro wf' hwf'
      rcases words_ok _ ws hws wf' hwf' with h' | h'
      · exact Or.inl h'
      · exact Or.inr h'.1
    have := tableFromWords_noNl IMAGE_PIX_WIDTH ws hok line hl wf hwf
    rw [heq] at this
    simp at this
  · intro W s hcur
    rw [wtNewline, if_pos (List.isEmpty_iff.2 hcur)]

theorem c6_newline_witness :
    ∀ line ∈ [[(['a', 'b'], fontA)], [(['c', 'd'], fontA)]],
      ∀ wf ∈ line, wf.1 ≠ ['\n'] :=
  c6_newline_new_line.2.1 [fontA] ['a', 'b', '\n', 'c', 'd'] _ word_table_ab_cd

/-- **C9.**  In every table produced by `TextProcessor.word_table`, every
line except possibly the last is nonempty, and an empty final line can arise
only when the last word handed to the line wrapper is the literal newline
word. -/
theorem c9_lines_nonempty (fonts : List Font) (text : List Char)
    (ws : List (List Char × Font)) (hws : words (letters fonts text) = some ws) :
    word_table fonts text = some (tableFromWords IMAGE_PIX_WIDTH ws) ∧
    (∀ line ∈ (tableFromWords IMAGE_PIX_WIDTH ws).dropLast, line ≠ []) ∧
    ((tableFromWords IMAGE_PIX_WIDTH ws).getLast? = some [] →
      ∃ wf, ws.getLast? = some wf ∧ wf.1 = ['\n']) := by
  refine ⟨by rw [word_table, hws]; rfl, ?_, ?_⟩
  · simp only [tableFromWords]
    intro line hl
    rw [List.dropLast_concat] at hl
    exact wtFoldl_done_ne IMAGE_PIX_WIDTH ws _
      (fun l h => absurd h (List.not_mem_nil l)) line hl
  · simp only [tableFromWords]
    intro hlast
    rw [List.getLast?_concat] at hlast
    have hcur : (ws.foldl (wtStep IMAGE_PIX_WIDTH)
        { done := [], cur := [], budget := (IMAGE_PIX_WIDTH : ℤ) }).cur = [] := by
      exact Option.some_inj.1 hlast
    exact wtFoldl_last_nl IMAGE_PIX_WIDTH ws _ (words_ne_nil _ ws hws) hcur

theorem c9_lines_witness :
    word_table [fontA] ['a', 'b', '\n', 'c', 'd'] =
      some (tableFromWords IMAGE_PIX_WIDTH
        [(['a', 'b'], fontA), (['\n'], fontA), (['c', 'd'], fontA)]) :=
  (c9_lines_nonempty [fontA] ['a', 'b', '\n', 'c', 'd'] _ rfl).1

/-- **C7.**  `compile_text` produces a canvas of width exactly
`PIXELS_PER_LINE * FONT_SIZE` and height exactly `line_heigth fonts` times
the number of lines of the layout table, where `line_heigth` is the maximum
`letter_height` over the font set; in particular the two-line table of
`"ab\ncd"` over a font of height 20 yields a 2720 × 40 canvas. -/
theorem c7_canvas_size :
    (∀ (fonts : List Font) (text : List Char) (table : List (List (List Char × Font))),
      word_table fonts text = some table →
      ∃ canvas, compile_text fonts text = some canvas ∧
        canvas.size = (PIXELS_PER_LINE * FONT_SIZE, line_heigth fonts * table.length)) ∧
    (∀ (fonts : List Font) (f : Font), f ∈ fonts → f.letter_height ≤ line_heigth fonts) ∧
    (∀ (font0 : Font) (fs : List Font),
      ∃ f ∈ font0 :: fs, line_heigth (font0 :: fs) = f.letter_height) ∧
    (compile_text [fontA] ['a', 'b', '\n', 'c', 'd']).map Canvas.size =
      some (2720, 40) := by
  refine ⟨?_, fun fonts f h => line_heigth_ge fonts f h,
    fun font0 fs => line_heigth_attained font0 fs, ?_⟩
  · intro fonts text table h
    rw [compile_text, h, Option.map_some']
    exact ⟨_, rfl, rfl⟩
  · rw [compile_text, word_table_ab_cd, Option.map_some']
    simp only [Option.map_some']
    norm_num [line_heigth, fontA, PIXELS_PER_LINE, FONT_SIZE]

theorem c7_canvas_witness :
    ∃ canvas, compile_text [fontA] ['a', 'b', '\n', 'c', 'd'] = some canvas ∧
      canvas.size = (PIXELS_PER_LINE * FONT_SIZE,
        line_heigth [fontA] * [[(['a', 'b'], fontA)], [(['c', 'd'], fontA)]].length) :=
  c7_canvas_size.1 [fontA] ['a', 'b', '\n', 'c', 'd'] _ word_table_ab_cd

/-- **C8.**  `citizen_print_msg` raises `NothingToPrint` precisely when the
text argument is falsy (absent or empty) and the image argument is absent;
when it raises, the guard fires before anything else runs, so the layout
core is never invoked and nothing is sent to the printer (the event list is
empty). -/
theorem c8_nothing_to_print (text : Option (List Char)) (img : Option Unit)
    (user_name : List Char) :
    ((citizen_print_msg text img user_name).raised = true ↔
      truthyText text = false ∧ img = none) ∧
    ((citizen_print_msg text img user_name).raised = true →
      (citizen_print_msg text img user_name).events = []) := by
  rw [citizen_print_msg]
  by_cases h : (!truthyText text && img.isNone) = true
  · rw [if_pos h]
    simp only [Bool.and_eq_true, Bool.not_eq_true'] at h
    exact ⟨⟨fun _ => ⟨h.1, Option.isNone_iff_eq_none.1 h.2⟩, fun _ => rfl⟩, fun _ => rfl⟩
  · rw [if_neg h]
    simp only [Bool.and_eq_true, Bool.not_eq_true'] at h
    constructor
    · constructor
      · intro hr
        exact absurd hr (by simp)
      · intro hc
        exact absurd ⟨hc.1, Option.isNone_iff_eq_none.2 hc.2⟩ h
    · intro hr
      exact absurd hr (by simp)

theorem c8_nothing_witness :
    (citizen_print_msg none none ['u']).raised = true ∧
    (citizen_print_msg none none ['u']).events = [] := by
  have h := c8_nothing_to_print none none ['u']
  have h1 : (citizen_print_msg none none ['u']).raised = true := h.1.mpr ⟨rfl, rfl⟩
  exact ⟨h1, h.2 h1⟩

/-- **C1, counterexample.**  With a font whose average `letter_width` is the
fractional value 5439/2, the one-word input `"a"` yields a single line whose
word the wrapper accepted as fitting — the code computes
`int(1 * 5439/2 + 1) = 2720 ≤ 2720` — yet the spec's formula
`ceil(1 * 5439/2) + 1 = 2721` exceeds the canvas width 2720, so the claimed
bound fails on a line containing no forced-split fragment. -/
theorem c1_ceil_counterexample :
    word_table [fontHalf] ['a'] = some [[(['a'], fontHalf)]] ∧
    wordPixLen ['a'] fontHalf ≤ (IMAGE_PIX_WIDTH : ℤ) ∧
    (IMAGE_PIX_WIDTH : ℤ) < specCeilPix ['a'] fontHalf := by
  have ha : wordPixLen ['a'] fontHalf = 2720 := by norm_num [wordPixLen, pyInt, fontHalf]
  refine ⟨?_, ?_, ?_⟩
  · have hw : words (letters [fontHalf] ['a']) = some [(['a'], fontHalf)] := rfl
    rw [word_table, hw, Option.map_some']
    simp only [tableFromWords, List.foldl, wtStep, ha,
      if_neg (by decide : ¬ ((['a'] : List Char) = ['\n']))]
    norm_num [wtAddWord, wtNewline, IMAGE_PIX_WIDTH, PIXELS_PER_LINE, FONT_SIZE]
  · rw [ha]
    norm_num [IMAGE_PIX_WIDTH, PIXELS_PER_LINE, FONT_SIZE]
  · have hc : (⌈((['a'] : List Char).length : ℚ) * fontHalf.letter_width⌉ : ℤ) = 2720 := by
      rw [show ((['a'] : List Char).length : ℚ) * fontHalf.letter_width = 5439 / 2 by
        norm_num [fontHalf]]
      rw [Int.ceil_eq_iff] <;> norm_num
    rw [specCeilPix, hc]
    norm_num [IMAGE_PIX_WIDTH, PIXELS_PER_LINE, FONT_SIZE]

/-- **C1, amended.**  For every font set with nonnegative average letter
widths, every line of every table `TextProcessor.word_table` produces either
has its pixel sum — computed with the code's formula
`int(len(word) * letter_width + 1)` per word, which coincides with
`ceil(len*width)+1` exactly when `len*width` is an integer — bounded by the
canvas width `IMAGE_PIX_WIDTH`, or is a single forced-split fragment whose
own pixel length exceeds the full canvas width. -/
theorem c1_width_bound (fonts : List Font) (text : List Char)
    (table : List (List (List Char × Font)))
    (hlw : ∀ f ∈ fonts, 0 ≤ f.letter_width)
    (h : word_table fonts text = some table) :
    ∀ line ∈ table, linePixSum line ≤ (IMAGE_PIX_WIDTH : ℤ) ∨
      ∃ wf, line = [wf] ∧ (IMAGE_PIX_WIDTH : ℤ) < wordPixLen wf.1 wf.2 := by
  rw [word_table] at h
  rcases Option.map_eq_some'.1 h with ⟨ws, hws, rfl⟩
  have hf : ∀ wf ∈ ws, 0 ≤ wf.2.letter_width := by
    intro wf hwf
    exact hlw wf.2 (words_font_mem fonts _ ws hws
      (fun t ht => letters_font_mem fonts text t ht) wf hwf)
  intro line hl
  exact tableFromWords_good IMAGE_PIX_WIDTH ws hf line hl

theorem c1_width_bound_witness :
    linePixSum [(['a', 'b'], fontA)] ≤ (IMAGE_PIX_WIDTH : ℤ) ∨
    ∃ wf, [(['a', 'b'], fontA)] = [wf] ∧ (IMAGE_PIX_WIDTH : ℤ) < wordPixLen wf.1 wf.2 :=
  c1_width_bound [fontA] ['a', 'b', '\n', 'c', 'd'] _
    (by intro f hf; rw [List.mem_singleton.1 hf]; norm_num [fontA])
    word_table_ab_cd [(['a', 'b'], fontA)] (List.mem_cons_self _ _)

/-- **C2.**  When a word's pixel length exceeds the full canvas width `W`,
the line wrapper deterministically splits it into exactly
`ceil(word_pixels / W)` fragments, each being the next
`floor(W / letter_height)` characters of the word (the height metric, not
the width, sizes the fragments), placed one fragment per fresh line in
order; in particular a word of 30 `'m'`s with `letter_width = 10`,
`letter_height = 20` and `W = 100` has `word_pixels = 301` and wraps to
exactly four lines `"mmmmm"`, truncating the last 10 characters. -/
theorem c2_forced_split :
    (∀ (W : ℕ) (s : WTState) (w : List Char) (f : Font),
      w ≠ ['\n'] → 0 < W → (W : ℤ) < wordPixLen w f →
      (s.cur = [] → s.budget = (W : ℤ)) → s.budget ≤ (W : ℤ) →
      ((((wordPixLen w f - 1).fdiv (W : ℤ) + 1).toNat : ℤ) =
        ⌈(wordPixLen w f : ℚ) / (W : ℚ)⌉) ∧
      wtStep W s (w, f) =
        { done := (wtNewline W s).done ++
            (List.range (((wordPixLen w f - 1).fdiv (W : ℤ) + 1).toNat - 1)).map
              (fun i =>
                [((w.drop (i * (W / f.letter_height))).take (W / f.letter_height), f)]),
          cur := [((w.drop ((((wordPixLen w f - 1).fdiv (W : ℤ) + 1).toNat - 1) *
              (W / f.letter_height))).take (W / f.letter_height), f)],
          budget := (W : ℤ) - wordPixLen w f }) ∧
    tableFromWords 100 [(List.replicate 30 'm', fontA)] =
      [[(List.replicate 5 'm', fontA)], [(List.replicate 5 'm', fontA)],
       [(List.replicate 5 'm', fontA)], [(List.replicate 5 'm', fontA)]] ∧
    wordPixLen (List.replicate 30 'm') fontA = 301 ∧
    (100 : ℕ) / fontA.letter_height = 5 := by
  refine ⟨?_, ?_, ?_, ?_⟩
  · intro W s w f hnl hW0 hwW hb hbW
    have hfd : 0 ≤ (wordPixLen w f - 1).fdiv (W : ℤ) :=
      Int.fdiv_nonneg (by omega) (by positivity)
    constructor
    · rw [Int.toNat_of_nonneg (by omega)]
      exact ceil_div_eq (wordPixLen w f) W hW0 hwW
    · exact wtStep_forced W s w f hnl hwW hb hbW
  · have hm : wordPixLen (List.replicate 30 'm') fontA = 301 := by
      norm_num [wordPixLen, pyInt, fontA]
    have hrange : ((301 - 1 : ℤ).fdiv (100 : ℤ) + 1).toNat = 4 := by decide
    simp only [tableFromWords, List.foldl, wtStep, hm, hrange,
      if_neg (by decide : ¬ (List.replicate 30 'm' = ['\n']))]
    norm_num [wtAddWord, wtNewline, List.range_succ, List.take_replicate,
      List.drop_replicate, fontA]
  · norm_num [wordPixLen, pyInt, fontA]
  · norm_num [fontA]

theorem c2_forced_split_witness :
    (((wordPixLen (List.replicate 30 'm') fontA - 1).fdiv ((100 : ℕ) : ℤ) + 1).toNat : ℤ) =
      ⌈(wordPixLen (List.replicate 30 'm') fontA : ℚ) / ((100 : ℕ) : ℚ)⌉ :=
  (c2_forced_split.1 100 { done := [], cur := [], budget := ((100 : ℕ) : ℤ) }
    (List.replicate 30 'm') fontA (by decide) (by norm_num)
    (by norm_num [wordPixLen, pyInt, fontA]) (fun _ => rfl) (le_refl _)).1
